import Mathlib

/-!
Verification development for the TCG market price checker bot.

The development shallowly embeds the two source files of the repository:

* `src/services/messageParser.ts` — classification predicates and the
  `cleanProductName` text normalizer (prefix stripping, em-dash replacement,
  whitespace collapsing, trimming, whole-word abbreviation expansion);
* `src/services/tcgplayerService.ts` — the `TCGPlayerService` class
  (the cached catalog snapshot, `initialize`, `searchProducts`, `formatPrice`),
  embedded as a `ServiceState` record with explicit state-passing, and
* the bot entry file (`handleChannelMessage` / `handlePriceCommand`), of which
  only the interaction with the service is modelled.

Strings are modelled as `List Char` internally (`String` at the boundary).
JavaScript regular-expression operations are embedded as recursive character
scanners that mirror the exact regexes of the source; the characters appearing
mojibake-encoded in `tcgplayerService.ts` (for example `Pok├⌐mon` and
the dash pattern `ΓÇö`) are kept exactly as the source has them.
Numeric price values are a type parameter `Num` together with a rendering
function abstracting JavaScript's `Number.prototype.toFixed(2)` (IEEE floating
point is not embedded; none of the verified properties depend on it).
-/

namespace TCGBot

/-! ## JavaScript string primitives -/

/-- The ECMAScript `\s` class (also the character set removed by
`String.prototype.trim`): tab, line feed, vertical tab, form feed, carriage
return, space, no-break space, zero-width no-break space, the Unicode
`Space_Separator` characters, and the line/paragraph separators. -/
def jsWs (c : Char) : Bool :=
  c = ' ' || c = '\t' || c = '\n' || c = '\u000B' || c = '\u000C' || c = '\r' ||
  c = '\u00A0' || c = '\u1680' || ('\u2000' ≤ c && c ≤ '\u200A') ||
  c = '\u2028' || c = '\u2029' || c = '\u202F' || c = '\u205F' ||
  c = '\u3000' || c = '\uFEFF'

/-- The ECMAScript `\w` class: ASCII letters, digits and underscore. -/
def wordChar (c : Char) : Bool :=
  ('a' ≤ c && c ≤ 'z') || ('A' ≤ c && c ≤ 'Z') || ('0' ≤ c && c ≤ '9') || c = '_'

/-- Case canonicalization used to model the regex `i` flag, for the characters
that occur in the source's patterns: ASCII case folding plus `É ↦ é`
(the one non-ASCII cased letter appearing in a case-insensitive pattern). -/
def jsLower (c : Char) : Char :=
  if c = 'É' then 'é' else c.toLower

/-- Match `pat` case-insensitively at the start of `s`; on success return the
rest of `s` after the matched part. -/
def matchPrefixCI : List Char → List Char → Option (List Char)
  | [], rest => some rest
  | _ :: _, [] => none
  | p :: ps, c :: cs => if jsLower c = jsLower p then matchPrefixCI ps cs else none

/-- Drop leading `\s` characters (the `\s*` part of the prefix regexes, and the
left half of `trim`). -/
def dropWs : List Char → List Char
  | [] => []
  | c :: cs => if jsWs c then dropWs cs else c :: cs

/-- One `.replace(/^PAT\s*/i, '')` step of the source: if the pattern matches
at the start (case-insensitively), remove it together with the whitespace that
follows; otherwise leave the string unchanged. -/
def stripPrefixCI (pat : List Char) (s : List Char) : List Char :=
  match matchPrefixCI pat s with
  | some rest => dropWs rest
  | none => s

/-- Whether `(matchPrefixCI pat s).isSome`, that is, whether the regex
`/^pat/i` matches `s`. -/
def startsWithCI (pat : List Char) (s : List Char) : Bool :=
  (matchPrefixCI pat s).isSome

/-- The source's `.replace(/—/g, '-')` (em-dash `U+2014` to hyphen). -/
def dashToHyphen (s : List Char) : List Char :=
  s.map fun c => if c = '—' then '-' else c

/-- The source's `.replace(/ΓÇö/g, '-')` in `searchProducts`: the pattern is
the literal three-character sequence `U+0393 U+00C7 U+00F6` (a mojibake
encoding of an em-dash), matched case-sensitively (the regex has no `i` flag). -/
def replaceMojibakeDash : List Char → List Char
  | 'Γ' :: 'Ç' :: 'ö' :: rest => '-' :: replaceMojibakeDash rest
  | c :: cs => c :: replaceMojibakeDash cs
  | [] => []

/-- Worker for `collapseWs`; the flag records whether the previously read
character was whitespace (in which case the current run's single output space
has already been emitted). -/
def collapseWsAux : Bool → List Char → List Char
  | _, [] => []
  | prevWs, c :: cs =>
    if jsWs c then
      if prevWs then collapseWsAux true cs else ' ' :: collapseWsAux true cs
    else c :: collapseWsAux false cs

/-- The source's `.replace(/\s+/g, ' ')`: every maximal run of whitespace
becomes a single space. -/
def collapseWs (s : List Char) : List Char :=
  collapseWsAux false s

/-- `String.prototype.trim`: drop leading and trailing whitespace. -/
def jsTrim (s : List Char) : List Char :=
  ((dropWs s).reverse |> dropWs).reverse

/-- Boundary-checked case-insensitive match of the whole-word regex
`/\bab\b/i` at the start of `s`, where `ab` consists of word characters (true
for the source's abbreviations `upc`, `etb`, `bb`): the previous character must
not be a word character, `ab` must match case-insensitively, and the character
after the match (if any) must not be a word character. Returns the rest after
the match. The empty pattern never matches. -/
def wordMatchCI (ab : List Char) (prevW : Bool) (s : List Char) : Option (List Char) :=
  match ab with
  | [] => none
  | _ :: _ =>
    if prevW then none
    else
      match matchPrefixCI ab s with
      | some rest =>
        match rest with
        | [] => some []
        | c :: _ => if wordChar c then none else some rest
      | none => none

theorem matchPrefixCI_length {pat s rest : List Char}
    (h : matchPrefixCI pat s = some rest) : rest.length + pat.length = s.length := by
  induction pat generalizing s with
  | nil => simp [matchPrefixCI] at h; simp [h]
  | cons p ps ih =>
    cases s with
    | nil => simp [matchPrefixCI] at h
    | cons c cs =>
      simp only [matchPrefixCI] at h
      split at h
      · have := ih h
        simp [List.length_cons]
        omega
      · exact absurd h (by simp)

theorem wordMatchCI_length {ab : List Char} {prevW : Bool} {s rest : List Char}
    (h : wordMatchCI ab prevW s = some rest) : rest.length < s.length ∨ s = [] := by
  unfold wordMatchCI at h
  cases ab with
  | nil => simp at h
  | cons a as =>
    simp only at h
    split at h
    · simp at h
    · cases hm : matchPrefixCI (a :: as) s with
      | none => rw [hm] at h; simp at h
      | some r =>
        rw [hm] at h
        have hl := matchPrefixCI_length hm
        cases r with
        | nil =>
          simp at h
          subst h
          cases s with
          | nil => right; rfl
          | cons x xs => left; simp
        | cons c cs =>
          simp only at h
          split at h
          · simp at h
          · simp at h
            subst h
            left
            simp at hl ⊢
            omega

/-- Fuel-indexed worker for `replaceWordCI`; the fuel only serves to make the
recursion structural (each step consumes at least one input character, so fuel
equal to the input length is always sufficient, see `replaceWordFuel_congr`). -/
def replaceWordFuel (ab full : List Char) : Nat → Bool → List Char → List Char
  | 0, _, s => s
  | _ + 1, _, [] => []
  | fuel + 1, prevW, c :: cs =>
    match wordMatchCI ab prevW (c :: cs) with
    | some rest => full ++ replaceWordFuel ab full fuel true rest
    | none => c :: replaceWordFuel ab full fuel (wordChar c) cs

/-- One `cleaned.replace(new RegExp("\\b" + abbrev + "\\b", "gi"), full)` step
of the source's abbreviation loop: scan left to right, replacing every
whole-word case-insensitive occurrence of `ab` by `full`; `prevW` records
whether the previous character was a word character (for the left `\b`). -/
def replaceWordCI (ab full : List Char) (prevW : Bool) (s : List Char) : List Char :=
  replaceWordFuel ab full s.length prevW s

theorem replaceWordFuel_nil {ab full : List Char} (fuel : Nat) (prevW : Bool) :
    replaceWordFuel ab full fuel prevW [] = [] := by
  cases fuel <;> rfl

theorem replaceWordFuel_congr {ab full : List Char} :
    ∀ {f1 f2 : Nat} {prevW : Bool} {s : List Char}, s.length ≤ f1 → s.length ≤ f2 →
      replaceWordFuel ab full f1 prevW s = replaceWordFuel ab full f2 prevW s := by
  intro f1
  induction f1 with
  | zero =>
    intro f2 prevW s h1 _
    have : s = [] := by
      cases s with
      | nil => rfl
      | cons c cs => simp at h1
    subst this
    rw [replaceWordFuel_nil, replaceWordFuel_nil]
  | succ n ih =>
    intro f2 prevW s h1 h2
    cases s with
    | nil => rw [replaceWordFuel_nil, replaceWordFuel_nil]
    | cons c cs =>
      cases f2 with
      | zero => simp at h2
      | succ m =>
        simp only [List.length_cons] at h1 h2
        simp only [replaceWordFuel]
        cases hm : wordMatchCI ab prevW (c :: cs) with
        | some rest =>
          have hr : rest.length < cs.length + 1 := by
            rcases wordMatchCI_length hm with h' | h'
            · simpa using h'
            · simp at h'
          simp only []
          congr 1
          exact ih (by omega) (by omega)
        | none =>
          simp only []
          congr 1
          exact ih (by omega) (by omega)

theorem replaceWordCI_cons {ab full : List Char} {prevW : Bool} {c : Char}
    {cs : List Char} :
    replaceWordCI ab full prevW (c :: cs) =
      match wordMatchCI ab prevW (c :: cs) with
      | some rest => full ++ replaceWordCI ab full true rest
      | none => c :: replaceWordCI ab full (wordChar c) cs := by
  show replaceWordFuel ab full (cs.length + 1) prevW (c :: cs) = _
  simp only [replaceWordFuel]
  cases hm : wordMatchCI ab prevW (c :: cs) with
  | some rest =>
    have hr : rest.length < cs.length + 1 := by
      rcases wordMatchCI_length hm with h' | h'
      · simpa using h'
      · simp at h'
    simp only []
    congr 1
    exact replaceWordFuel_congr (by omega) le_rfl
  | none => rfl

/-! ## messageParser.ts: `cleanProductName` -/

/-- The source's `ABBREVIATIONS` record, in the insertion order iterated by
`Object.entries`. -/
def ABBREVIATIONS : List (String × String) :=
  [("upc", "Ultra Premium Collection"),
   ("etb", "Elite Trainer Box"),
   ("bb", "Booster Box")]

/-- The abbreviation-expansion loop of `cleanProductName`. -/
def expandAbbreviations (s : List Char) : List Char :=
  ABBREVIATIONS.foldl (fun cur af => replaceWordCI af.1.data af.2.data false cur) s

/-- The initial chained `.replace` pipeline of `cleanProductName`
(messageParser.ts lines 144-151), before abbreviation expansion: strip the
four catalog prefixes in order, replace em-dashes, collapse whitespace runs,
trim. -/
def rawCleanup (s : List Char) : List Char :=
  let s1 := stripPrefixCI "Pokémon Trading Card Game:".data s
  let s2 := stripPrefixCI "Pokemon Trading Card Game:".data s1
  let s3 := stripPrefixCI "Pokemon TCG:".data s2
  let s4 := stripPrefixCI "PTCG:".data s3
  jsTrim (collapseWs (dashToHyphen s4))

/-- `cleanProductName` from messageParser.ts: the raw cleanup pass followed by
whole-word abbreviation expansion. -/
def cleanProductName (s : String) : String :=
  ⟨expandAbbreviations (rawCleanup s.data)⟩

/-- The raw cleanup as a `String` function (the Text Normalizer's first pass). -/
def rawCleanupStr (s : String) : String :=
  ⟨rawCleanup s.data⟩

/-- The query-cleanup pipeline at the start of `TCGPlayerService.searchProducts`
(tcgplayerService lines 329-334): note that, unlike `cleanProductName`, it
does not strip the `Pokemon TCG:` prefix, its first pattern is the mojibake
sequence `Pok├⌐mon Trading Card Game:`, its dash pattern is the
mojibake sequence `ΓÇö` rather than an em-dash, and it does not
collapse whitespace runs. -/
def searchCleanQuery (s : String) : String :=
  let s1 := stripPrefixCI "Pok├⌐mon Trading Card Game:".data s.data
  let s2 := stripPrefixCI "Pokemon Trading Card Game:".data s1
  let s3 := stripPrefixCI "PTCG:".data s2
  ⟨jsTrim (replaceMojibakeDash s3)⟩

/-! ## tcgplayerService.ts: data model -/

/-- A catalog group (set). `publishedOn` and `modifiedOn` are ISO date strings
in the source, used only through `new Date(...)` comparisons; they are modelled
directly as millisecond timestamps. -/
structure TCGGroup where
  groupId : Int
  name : String
  abbreviation : String
  publishedOn : Int
  modifiedOn : Int
  categoryId : Int
deriving DecidableEq

/-- A catalog product record. `extendedData` is the optional list of
name/value pairs of the source. -/
structure TCGProduct where
  productId : Int
  name : String
  cleanName : String
  imageUrl : String
  categoryId : Int
  groupId : Int
  url : String
  modifiedOn : Int
  extendedData : Option (List (String × String)) := none
deriving DecidableEq

/-- A price record for one product under one sub-type. The nullable numeric
fields are `Option Num`, where `Num` abstracts the JavaScript number type. -/
structure TCGPrice (Num : Type) where
  productId : Int
  lowPrice : Option Num := none
  midPrice : Option Num := none
  highPrice : Option Num := none
  marketPrice : Option Num := none
  directLowPrice : Option Num := none
  subTypeName : String
deriving DecidableEq

/-- The denormalized record indexed and returned by the service: a product
together with all its price records and its group's display name. -/
structure ProductWithPrice (Num : Type) extends TCGProduct where
  prices : List (TCGPrice Num)
  groupName : String
deriving DecidableEq

/-- The mutable fields of the `TCGPlayerService` singleton, with their
initializer values as defaults. The two `Map` caches are modelled as
insertion-ordered association lists. The Fuse.js index is modelled as the
collection it was built over (`none` when the index has not been built;
the weighted-key and threshold options are abstracted into the scoring
function given to `fuseSearch`). -/
structure ServiceState (Num : Type) where
  groupsCache : List TCGGroup := []
  productsCache : List (Int × List TCGProduct) := []
  pricesCache : List (Int × List (TCGPrice Num)) := []
  allProductsWithPrices : List (ProductWithPrice Num) := []
  fuse : Option (List (ProductWithPrice Num)) := none
  lastFetchTime : Int := 0
  cacheValidityMs : Int := 6 * 60 * 60 * 1000
deriving DecidableEq

variable {Num : Type}

/-- The state of the freshly constructed service (all field initializers). -/
def initialState : ServiceState Num := {}

/-- Lookup in an insertion-ordered association list (`Map.prototype.get`). -/
def getAssoc {α : Type} (m : List (Int × α)) (k : Int) : Option α :=
  (m.find? fun e => e.1 == k).map fun e => e.2

/-- Update in an insertion-ordered association list (`Map.prototype.set`):
replace in place if the key is present, else append. -/
def setAssoc {α : Type} (m : List (Int × α)) (k : Int) (v : α) : List (Int × α) :=
  if m.any fun e => e.1 == k then
    m.map fun e => if e.1 == k then (k, v) else e
  else m ++ [(k, v)]

/-! ## tcgplayerService.ts: `initialize` -/

/-- The `priceMap` loop of `initialize`: group the price records of one group
by `productId`, preserving both the iteration order of products and the order
of each product's price records. -/
def buildPriceMap (prices : List (TCGPrice Num)) : List (Int × List (TCGPrice Num)) :=
  prices.foldl
    (fun m price =>
      let existing := (getAssoc m price.productId).getD []
      setAssoc m price.productId (existing ++ [price]))
    []

/-- The per-group product loop of `initialize`: join each product of the group
with its price records (empty list when the map has no entry) and the group's
display name. -/
def groupEntries (g : TCGGroup) (products : List TCGProduct)
    (prices : List (TCGPrice Num)) : List (ProductWithPrice Num) :=
  let priceMap := buildPriceMap prices
  products.map fun product =>
    { toTCGProduct := product
      prices := (getAssoc priceMap product.productId).getD []
      groupName := g.name }

/-- The recency filter and sort of `initialize` (lines 257-264): keep groups
whose publication date is strictly after the cutoff (`new Date()` minus two
calendar years — despite the variable name `oneYearAgo`; the calendar
arithmetic is abstracted into the `twoYearsAgo` parameter), sorted by
publication date, most recent first. JavaScript's `Array.prototype.sort` is
stable, as is `List.mergeSort`. -/
def recentGroups (twoYearsAgo : Int) (groups : List TCGGroup) : List TCGGroup :=
  (groups.filter fun g => twoYearsAgo < g.publishedOn).mergeSort
    fun a b => decide (b.publishedOn ≤ a.publishedOn)

/-- The early-return guard of `initialize` (line 244): the cached snapshot is
used when no refresh is forced, the snapshot is non-empty, and the last build
is younger than the validity window. -/
def usesCache (s : ServiceState Num) (now : Int) (forceRefresh : Bool) : Bool :=
  !forceRefresh && s.allProductsWithPrices.length > 0 &&
    now - s.lastFetchTime < s.cacheValidityMs

/-- The result of the `Promise.all` of `fetchProducts(groupId)` and
`fetchPrices(groupId)` for one group: either both lists, or the first
rejection. -/
def GroupFetch (Num : Type) : Type :=
  Int → Except String (List TCGProduct × List (TCGPrice Num))

/-- The body of the per-group `try`/`catch` of `initialize`: on a successful
fetch, append the group's joined entries and record the two caches; on a
failure the error is caught (logged) and the state is left as it was. -/
def initStep (fetch : GroupFetch Num) (st : ServiceState Num) (g : TCGGroup) :
    ServiceState Num :=
  match fetch g.groupId with
  | .ok pp =>
    { st with
      allProductsWithPrices := st.allProductsWithPrices ++ groupEntries g pp.1 pp.2
      productsCache := setAssoc st.productsCache g.groupId pp.1
      pricesCache := setAssoc st.pricesCache g.groupId pp.2 }
  | .error _ => st

/-- The entries one group contributes to the accumulated collection: its
joined products on a successful fetch, nothing when its fetch failed. -/
def groupOutcomeEntries (fetch : GroupFetch Num) (g : TCGGroup) :
    List (ProductWithPrice Num) :=
  match fetch g.groupId with
  | .ok pp => groupEntries g pp.1 pp.2
  | .error _ => []

/-- `TCGPlayerService.initialize(forceRefresh)`, with the network abstracted
into the outcome `groupsFetch` of `fetchGroups()` and the per-group outcome
function `fetch`. A failed group fetch propagates (`initialize` throws);
inside the loop each group's failure is caught and the group is skipped.
After the loop the index is built over the accumulated collection and the
fetch time is stamped. -/
def initializeService (s : ServiceState Num) (now : Int) (forceRefresh : Bool)
    (twoYearsAgo : Int) (groupsFetch : Except String (List TCGGroup))
    (fetch : GroupFetch Num) : Except String (ServiceState Num) :=
  if usesCache s now forceRefresh then .ok s
  else
    match groupsFetch with
    | .error e => .error e
    | .ok groups =>
      let recent := recentGroups twoYearsAgo groups
      let start := { s with groupsCache := groups,
                            allProductsWithPrices := ([] : List (ProductWithPrice Num)) }
      let looped := recent.foldl (initStep fetch) start
      .ok { looped with
              lastFetchTime := now
              fuse := some looped.allProductsWithPrices }

/-! ## tcgplayerService.ts: `searchProducts` and `formatPrice` -/

/-- Modelled from the spec: the Fuse.js fuzzy index (an external library, not
part of this repository). Section 4.2 of the spec specifies its contract:.
matching is approximate over the weighted keys with a tolerance threshold, and
`search(query, \x7blimit\x7d)` returns the matching documents best match first,
truncated to `limit`. The scoring algorithm itself (weighted bitap, threshold
0.4, minimum match length 3) is abstracted as the parameter `score`, where
`none` means the document does not match and a lower score is a better match;
results are sorted by ascending score (stably) and cut to `limit`. -/
def fuseSearch (score : ProductWithPrice Num → String → Option ℚ)
    (docs : List (ProductWithPrice Num)) (q : String) (limit : Nat) :
    List (ProductWithPrice Num) :=
  let scored := docs.filterMap fun p => (score p q).map fun sc => (sc, p)
  let sorted := scored.mergeSort fun a b => decide (a.1 ≤ b.1)
  (sorted.take limit).map fun r => r.2

/-- `TCGPlayerService.searchProducts(query, limit)` (default limit 5): an
unbuilt index yields no results and a `console.warn`; otherwise the query is
cleaned and handed to the index. The second component is the list of warning
lines logged by the call. -/
def searchProducts (score : ProductWithPrice Num → String → Option ℚ)
    (s : ServiceState Num) (query : String) (limit : Nat) :
    List (ProductWithPrice Num) × List String :=
  match s.fuse with
  | none => ([], ["Product data not initialized"])
  | some docs => (fuseSearch score docs (searchCleanQuery query) limit, [])

/-- `TCGPlayerService.formatPrice(product)`: zero price records give a fixed
string; otherwise the main price is the first record tagged `Normal`, or the
first record when none is, and the non-null members of market/low/mid/high are
rendered in that order and joined with a pipe. `toFixed2` abstracts
JavaScript's `v.toFixed(2)` rendering of the numeric value. -/
def formatPrice (toFixed2 : Num → String) (product : ProductWithPrice Num) : String :=
  match product.prices with
  | [] => "No price data available"
  | p0 :: rest =>
    let prices := p0 :: rest
    let mainPrice := (prices.find? fun p => p.subTypeName == "Normal").getD p0
    let lines : List String := []
    let lines := match mainPrice.marketPrice with
      | some v => lines ++ ["Market: $" ++ toFixed2 v]
      | none => lines
    let lines := match mainPrice.lowPrice with
      | some v => lines ++ ["Low: $" ++ toFixed2 v]
      | none => lines
    let lines := match mainPrice.midPrice with
      | some v => lines ++ ["Mid: $" ++ toFixed2 v]
      | none => lines
    let lines := match mainPrice.highPrice with
      | some v => lines ++ ["High: $" ++ toFixed2 v]
      | none => lines
    String.intercalate " | " lines

/-! ## Bot entry file: the query paths -/

/-- The service-visible effect of `handlePriceCommand(message, query)` in the
bot entry file: the only interaction with the service is the call
`tcgplayerService.searchProducts(query, 5)`; no service field is assigned
anywhere on the path, so the service state after the command is the input
state. -/
def handlePriceCommandService (score : ProductWithPrice Num → String → Option ℚ)
    (s : ServiceState Num) (query : String) :
    ServiceState Num × (List (ProductWithPrice Num) × List String) :=
  (s, searchProducts score s query 5)

/-- The service-visible effect of `handleChannelMessage` for one extracted
product name: `cleanProductName` is applied and the result is handed to
`tcgplayerService.searchProducts(cleanedName, 1)`; again no service field is
written on the path. -/
def handleChannelMessageService (score : ProductWithPrice Num → String → Option ℚ)
    (s : ServiceState Num) (productName : String) :
    ServiceState Num × (List (ProductWithPrice Num) × List String) :=
  (s, searchProducts score s (cleanProductName productName) 1)

/-! ## Shared concrete sample data (used by the witness theorems) -/

/-- A sample catalog product. -/
def sampleProduct : TCGProduct :=
  { productId := 10
    name := "Scarlet & Violet-151 Elite Trainer Box"
    cleanName := "scarlet violet 151 elite trainer box"
    imageUrl := ""
    categoryId := 3
    groupId := 1
    url := ""
    modifiedOn := 0 }

/-- A sample `Normal` price record. -/
def sampleNormalPrice : TCGPrice Int :=
  { productId := 10
    lowPrice := some 35
    highPrice := some 60
    marketPrice := some 44
    subTypeName := "Normal" }

/-- A sample non-`Normal` price record. -/
def sampleFoilPrice : TCGPrice Int :=
  { productId := 10
    lowPrice := some 3
    subTypeName := "Foil" }

/-- A sample indexed entry whose first price record is not the `Normal` one. -/
def sampleEntry : ProductWithPrice Int :=
  { toTCGProduct := sampleProduct
    prices := [sampleFoilPrice, sampleNormalPrice]
    groupName := "SV151" }

/-- A sample entry with a single price record carrying no price values. -/
def sampleNullPriceEntry : ProductWithPrice Int :=
  { toTCGProduct := sampleProduct
    prices := [{ productId := 10, subTypeName := "Holo" }]
    groupName := "SV151" }

/-- A sample entry with zero price records. -/
def samplePricelessEntry : ProductWithPrice Int :=
  { toTCGProduct := sampleProduct
    prices := []
    groupName := "SV151" }

/-- A sample group published one month before the epoch reference point. -/
def sampleRecentGroup : TCGGroup :=
  { groupId := 1
    name := "SV151"
    abbreviation := "MEW"
    publishedOn := -2592000000
    modifiedOn := 0
    categoryId := 3 }

/-- A second sample group, published two weeks before the reference point. -/
def sampleSecondGroup : TCGGroup :=
  { groupId := 2
    name := "Surging Sparks"
    abbreviation := "SSP"
    publishedOn := -1209600000
    modifiedOn := 0
    categoryId := 3 }

/-- A sample group published three years before the reference point. -/
def sampleOldGroup : TCGGroup :=
  { groupId := 9
    name := "Base Set"
    abbreviation := "BS"
    publishedOn := -94608000000
    modifiedOn := 0
    categoryId := 3 }

/-- The two-calendar-year recency cutoff relative to the reference point. -/
def sampleCutoff : Int := -63115200000

/-- A sample per-group fetch outcome: group 1 succeeds, everything else
fails. -/
def sampleFetch : GroupFetch Int := fun gid =>
  if gid = 1 then .ok ([sampleProduct], [sampleNormalPrice, sampleFoilPrice])
  else .error "Failed to fetch products for group 2: 500"

/-- A sample scoring function for the abstracted fuzzy index. -/
def sampleScore : ProductWithPrice Int → String → Option ℚ :=
  fun p q => if 3 ≤ q.length then some ((p.prices.length : ℚ) / 10) else none

/-- A sample service state with a built snapshot. -/
def sampleState : ServiceState Int :=
  { allProductsWithPrices := [sampleEntry]
    fuse := some [sampleEntry]
    lastFetchTime := 0 }

/-! ## Claim C4 -/

/-- Claim C4, counterexample: on the exact scenario input
`"pokemon tcg: scarlet & violet—151 etb"`, `cleanProductName` does not return
the claimed capitalized string `"Scarlet & Violet-151 Elite Trainer Box"` —
the function never changes letter case outside the expanded abbreviation, so
the lowercase `scarlet & violet` of the input survives. -/
theorem cleanProductName_scenario_not_capitalized :
    cleanProductName "pokemon tcg: scarlet & violet—151 etb" ≠
      "Scarlet & Violet-151 Elite Trainer Box" := by
  decide

/-- Claim C4, amended: `cleanProductName` maps the scenario input
`"pokemon tcg: scarlet & violet—151 etb"` to
`"scarlet & violet-151 Elite Trainer Box"` (prefix stripped, em-dash replaced
by a hyphen, `etb` expanded, original casing preserved), and this is the
string handed to the matcher: the query cleanup inside `searchProducts`
leaves it unchanged, so on the channel-message path the fuzzy index is
searched with exactly this string. -/
theorem cleanProductName_scenario :
    cleanProductName "pokemon tcg: scarlet & violet—151 etb" =
      "scarlet & violet-151 Elite Trainer Box"
    ∧ searchCleanQuery "scarlet & violet-151 Elite Trainer Box" =
      "scarlet & violet-151 Elite Trainer Box"
    ∧ ∀ (Num : Type) (score : ProductWithPrice Num → String → Option ℚ)
        (s : ServiceState Num) (docs : List (ProductWithPrice Num)),
        s.fuse = some docs →
        (handleChannelMessageService score s
            "pokemon tcg: scarlet & violet—151 etb").2.1 =
          fuseSearch score docs "scarlet & violet-151 Elite Trainer Box" 1 := by
  refine ⟨by decide, by decide, ?_⟩
  intro Num score s docs h
  have h1 : cleanProductName "pokemon tcg: scarlet & violet—151 etb" =
      "scarlet & violet-151 Elite Trainer Box" := by decide
  have h2 : searchCleanQuery "scarlet & violet-151 Elite Trainer Box" =
      "scarlet & violet-151 Elite Trainer Box" := by decide
  simp [handleChannelMessageService, searchProducts, h, h1, h2]

/-- Witness for the amended claim C4 at a concrete built service state. -/
theorem cleanProductName_scenario_witness :
    (handleChannelMessageService sampleScore sampleState
        "pokemon tcg: scarlet & violet—151 etb").2.1 =
      fuseSearch sampleScore [sampleEntry] "scarlet & violet-151 Elite Trainer Box" 1 :=
  cleanProductName_scenario.2.2 Int sampleScore sampleState [sampleEntry] rfl

/-! ## Claim C9 -/

/-- Claim C9: while the fuzzy index has not yet been built (`fuse` is still
`null`, as in the freshly constructed service before any successful rebuild),
`searchProducts` returns the empty result list together with the logged
warning `Product data not initialized`; being a total function of the state,
it throws nothing. -/
theorem searchProducts_not_initialized {Num : Type}
    (score : ProductWithPrice Num → String → Option ℚ) (s : ServiceState Num)
    (query : String) (limit : Nat) (h : s.fuse = none) :
    searchProducts score s query limit = ([], ["Product data not initialized"])
    ∧ (@initialState Num).fuse = none := by
  constructor
  · simp [searchProducts, h]
  · rfl

/-- Witness for claim C9 at the freshly constructed service state. -/
theorem searchProducts_not_initialized_witness :
    searchProducts sampleScore (@initialState Int) "charizard etb" 5 =
      ([], ["Product data not initialized"]) ∧ (@initialState Int).fuse = none :=
  searchProducts_not_initialized sampleScore (@initialState Int) "charizard etb" 5 rfl

/-! ## Claim C10 -/

/-- Claim C10: a product that has at least one price record, but whose
selected main record carries `null` in all four of market/low/mid/high,
formats to the empty string — not to `No price data available`, which is
produced only when the product has zero price records. -/
theorem formatPrice_all_null_is_empty {Num : Type} (toFixed2 : Num → String)
    (product : ProductWithPrice Num) (p0 : TCGPrice Num) (ps : List (TCGPrice Num))
    (hp : product.prices = p0 :: ps)
    (hmarket : (((p0 :: ps).find? fun p => p.subTypeName == "Normal").getD p0).marketPrice = none)
    (hlow : (((p0 :: ps).find? fun p => p.subTypeName == "Normal").getD p0).lowPrice = none)
    (hmid : (((p0 :: ps).find? fun p => p.subTypeName == "Normal").getD p0).midPrice = none)
    (hhigh : (((p0 :: ps).find? fun p => p.subTypeName == "Normal").getD p0).highPrice = none) :
    formatPrice toFixed2 product = ""
    ∧ formatPrice toFixed2 product ≠ "No price data available" := by
  obtain ⟨tp, prices, gname⟩ := product
  simp only at hp
  subst hp
  have : formatPrice toFixed2 ⟨tp, p0 :: ps, gname⟩ = "" := by
    simp only [formatPrice, hmarket, hlow, hmid, hhigh]
    rfl
  exact ⟨this, by rw [this]; decide⟩

/-- Witness for claim C10 at a concrete one-record product. -/
theorem formatPrice_all_null_is_empty_witness :
    formatPrice (fun v : Int => toString v) sampleNullPriceEntry = ""
    ∧ formatPrice (fun v : Int => toString v) sampleNullPriceEntry ≠
        "No price data available" :=
  formatPrice_all_null_is_empty (fun v : Int => toString v) sampleNullPriceEntry
    { productId := 10, subTypeName := "Holo" } [] rfl rfl rfl rfl rfl

/-! ## Claim C8 -/

theorem find?_some_first {α : Type} {p : α → Bool} {l : List α} {a : α}
    (h : l.find? p = some a) :
    ∃ i : Fin l.length, l.get i = a ∧ p a = true ∧
      ∀ j : Fin l.length, j.val < i.val → p (l.get j) = false := by
  induction l with
  | nil => simp at h
  | cons x xs ih =>
    cases hx : p x with
    | true =>
      simp only [List.find?, hx] at h
      injection h with h
      subst h
      exact ⟨⟨0, by simp⟩, rfl, hx, fun j hj => by simp at hj⟩
    | false =>
      simp only [List.find?, hx] at h
      obtain ⟨i, hg, hpa, hfirst⟩ := ih h
      refine ⟨⟨i.val + 1, by simp⟩, by simpa using hg, hpa, ?_⟩
      rintro ⟨jv, hjlt⟩ hj
      cases jv with
      | zero => simpa using hx
      | succ k =>
        have hk : k < xs.length := by simp at hjlt; omega
        have hki : k < i.val := by simp at hj; omega
        have := hfirst ⟨k, hk⟩ hki
        simpa using this

/-- Claim C8: `formatPrice` returns the fixed no-data string exactly for a
product with zero price records; otherwise the selected main record is the
first record whose `subTypeName` is `Normal` (the head record when none is
tagged `Normal`), and the output is the non-null members of its
market/low/mid/high fields, rendered in that order and joined by a pipe. -/
theorem formatPrice_spec {Num : Type} (toFixed2 : Num → String)
    (product : ProductWithPrice Num) :
    (product.prices = [] → formatPrice toFixed2 product = "No price data available")
    ∧ ∀ p0 ps, product.prices = p0 :: ps →
      ∃ main : TCGPrice Num,
        ((∃ i : Fin (p0 :: ps).length, (p0 :: ps).get i = main ∧
            main.subTypeName = "Normal" ∧
            ∀ j : Fin (p0 :: ps).length, j.val < i.val →
              ((p0 :: ps).get j).subTypeName ≠ "Normal")
          ∨ (main = p0 ∧ ∀ q ∈ p0 :: ps, q.subTypeName ≠ "Normal"))
        ∧ formatPrice toFixed2 product = String.intercalate " | "
            (List.filterMap id
              [main.marketPrice.map (fun v => "Market: $" ++ toFixed2 v),
               main.lowPrice.map (fun v => "Low: $" ++ toFixed2 v),
               main.midPrice.map (fun v => "Mid: $" ++ toFixed2 v),
               main.highPrice.map (fun v => "High: $" ++ toFixed2 v)]) := by
  obtain ⟨tp, prices, gname⟩ := product
  constructor
  · intro h
    simp only at h
    subst h
    rfl
  · intro p0 ps hp
    simp only at hp
    subst hp
    refine ⟨((p0 :: ps).find? fun p => p.subTypeName == "Normal").getD p0, ?_, ?_⟩
    · cases hf : (p0 :: ps).find? (fun p => p.subTypeName == "Normal") with
      | none =>
        right
        have hnone := List.find?_eq_none.mp hf
        refine ⟨by simp [hf], fun q hq => ?_⟩
        have := hnone q hq
        simpa using this
      | some a =>
        left
        obtain ⟨i, hg, hpa, hfirst⟩ := find?_some_first hf
        refine ⟨i, by simp only [hf, Option.getD_some]; simpa using hg,
          by simpa using hpa, fun j hj => ?_⟩
        have := hfirst j hj
        simpa using this
    · show formatPrice toFixed2 ⟨tp, p0 :: ps, gname⟩ = _
      simp only [formatPrice]
      rcases hmm : (((p0 :: ps).find? fun p => p.subTypeName == "Normal").getD p0).marketPrice with _ | v1 <;>
        rcases hml : (((p0 :: ps).find? fun p => p.subTypeName == "Normal").getD p0).lowPrice with _ | v2 <;>
          rcases hmi : (((p0 :: ps).find? fun p => p.subTypeName == "Normal").getD p0).midPrice with _ | v3 <;>
            rcases hmh : (((p0 :: ps).find? fun p => p.subTypeName == "Normal").getD p0).highPrice with _ | v4 <;>
              simp [hmm, hml, hmi, hmh]

/-- Witness for claim C8: both branches at concrete products (zero price
records, and a product whose `Normal` record is not the head record). -/
theorem formatPrice_spec_witness :
    formatPrice (fun v : Int => toString v) samplePricelessEntry =
      "No price data available"
    ∧ ∃ main : TCGPrice Int,
        ((∃ i : Fin ([sampleFoilPrice, sampleNormalPrice] : List (TCGPrice Int)).length,
            ([sampleFoilPrice, sampleNormalPrice] : List (TCGPrice Int)).get i = main ∧
            main.subTypeName = "Normal" ∧
            ∀ j : Fin ([sampleFoilPrice, sampleNormalPrice] : List (TCGPrice Int)).length,
              j.val < i.val →
              (([sampleFoilPrice, sampleNormalPrice] : List (TCGPrice Int)).get j).subTypeName ≠ "Normal")
          ∨ (main = sampleFoilPrice ∧
              ∀ q ∈ ([sampleFoilPrice, sampleNormalPrice] : List (TCGPrice Int)),
                q.subTypeName ≠ "Normal"))
        ∧ formatPrice (fun v : Int => toString v) sampleEntry = String.intercalate " | "
            (List.filterMap id
              [main.marketPrice.map (fun v => "Market: $" ++ toString v),
               main.lowPrice.map (fun v => "Low: $" ++ toString v),
               main.midPrice.map (fun v => "Mid: $" ++ toString v),
               main.highPrice.map (fun v => "High: $" ++ toString v)]) :=
  ⟨(formatPrice_spec (fun v : Int => toString v) samplePricelessEntry).1 rfl,
   (formatPrice_spec (fun v : Int => toString v) sampleEntry).2
     sampleFoilPrice [sampleNormalPrice] rfl⟩

/-! ## Claim C6 -/

theorem groupLe_trans (a b c : TCGGroup)
    (h1 : decide (b.publishedOn ≤ a.publishedOn) = true)
    (h2 : decide (c.publishedOn ≤ b.publishedOn) = true) :
    decide (c.publishedOn ≤ a.publishedOn) = true := by
  simp only [decide_eq_true_eq] at *
  omega

theorem groupLe_total (a b : TCGGroup) :
    (decide (b.publishedOn ≤ a.publishedOn) || decide (a.publishedOn ≤ b.publishedOn)) = true := by
  rcases le_total b.publishedOn a.publishedOn with h | h <;> simp [h]

/-- Claim C6: the rebuild retains exactly the groups whose publication date is
within the last two years (strictly after the cutoff), processed most recently
published first; the sort is stable, so groups sharing a publication date keep
their original fetch order (their subsequence is unchanged); in particular, of
a two-group fetch with publication dates one month ago and three years ago,
only the first group is retained. -/
theorem recentGroups_spec :
    (∀ (twoYearsAgo : Int) (groups : List TCGGroup),
      (recentGroups twoYearsAgo groups).Perm
          (groups.filter fun g => twoYearsAgo < g.publishedOn)
      ∧ (recentGroups twoYearsAgo groups).Pairwise
          (fun a b => b.publishedOn ≤ a.publishedOn)
      ∧ ∀ k : Int,
          (recentGroups twoYearsAgo groups).filter (fun g => g.publishedOn = k) =
            (groups.filter fun g => twoYearsAgo < g.publishedOn).filter
              (fun g => g.publishedOn = k))
    ∧ recentGroups sampleCutoff [sampleRecentGroup, sampleOldGroup] = [sampleRecentGroup] := by
  constructor
  · intro twoYearsAgo groups
    refine ⟨List.mergeSort_perm _ _, ?_, ?_⟩
    · have := List.sorted_mergeSort groupLe_trans groupLe_total
        (groups.filter fun g => twoYearsAgo < g.publishedOn)
      exact this.imp_of_mem fun _ _ h => by simpa using h
    · intro k
      set base := groups.filter fun g => twoYearsAgo < g.publishedOn with hbase
      set c := base.filter (fun g => g.publishedOn = k) with hc
      have hmemk : ∀ g ∈ c, g.publishedOn = k := by
        intro g hg
        have := List.of_mem_filter hg
        simpa using this
      have hpw : c.Pairwise fun a b => decide (b.publishedOn ≤ a.publishedOn) = true := by
        apply List.pairwise_of_forall_mem_list
        intro a ha b hb
        simp [hmemk a ha, hmemk b hb]
      have hsub : c.Sublist (recentGroups twoYearsAgo groups) :=
        List.sublist_mergeSort groupLe_trans groupLe_total hpw (base.filter_sublist)
      have hsub2 : c.Sublist
          ((recentGroups twoYearsAgo groups).filter fun g => g.publishedOn = k) := by
        have := List.Sublist.filter (fun g => decide (g.publishedOn = k)) hsub
        rwa [List.filter_eq_self.mpr fun a ha => by simpa using hmemk a ha] at this
      have hperm : ((recentGroups twoYearsAgo groups).filter
          fun g => g.publishedOn = k).Perm c :=
        (List.mergeSort_perm base _).filter _
      exact (hsub2.eq_of_length (hperm.length_eq.symm)).symm
  · simp [recentGroups, List.mergeSort, sampleCutoff, sampleRecentGroup, sampleOldGroup]

/-! ## Claim C5 -/

theorem foldl_initStep_products {Num : Type} (fetch : GroupFetch Num) :
    ∀ (recent : List TCGGroup) (st : ServiceState Num),
      (recent.foldl (initStep fetch) st).allProductsWithPrices =
        st.allProductsWithPrices ++ recent.flatMap (groupOutcomeEntries fetch) := by
  intro recent
  induction recent with
  | nil => intro st; simp
  | cons g gs ih =>
    intro st
    rw [List.foldl_cons, ih, List.flatMap_cons]
    have : (initStep fetch st g).allProductsWithPrices =
        st.allProductsWithPrices ++ groupOutcomeEntries fetch g := by
      unfold initStep groupOutcomeEntries
      cases fetch g.groupId with
      | ok pp => rfl
      | error e => simp
    rw [this, List.append_assoc]

theorem bind_eq_filter_bind {α β : Type} (l : List α) (f : α → List β) (p : α → Bool)
    (h : ∀ x ∈ l, p x = false → f x = []) :
    l.flatMap f = (l.filter p).flatMap f := by
  induction l with
  | nil => rfl
  | cons x xs ih =>
    have ih2 := ih fun y hy => h y (List.mem_cons_of_mem x hy)
    cases hp : p x with
    | true => rw [List.flatMap_cons, List.filter_cons_of_pos hp, List.flatMap_cons, ih2]
    | false =>
      rw [List.flatMap_cons, List.filter_cons_of_neg (by simp [hp]),
        h x (List.mem_cons_self x xs) hp, List.nil_append, ih2]

/-- Claim C5: during a rebuild (the cache guard does not fire and the group
list was fetched) in which the product/price fetch fails for exactly one
retained group `G` and succeeds for all other retained groups, `initialize`
completes without throwing (the per-group failure is caught), and the
resulting snapshot consists of exactly the joined entries of the retained
groups other than `G`, in processing order; in particular every entry of
every successfully fetched retained group is present. -/
theorem initializeService_isolates_group_failure {Num : Type}
    (s : ServiceState Num) (now : Int) (forceRefresh : Bool) (twoYearsAgo : Int)
    (groups : List TCGGroup) (fetch : GroupFetch Num) (G : TCGGroup) (e : String)
    (hrun : usesCache s now forceRefresh = false)
    (hG : G ∈ recentGroups twoYearsAgo groups)
    (hfail : fetch G.groupId = .error e)
    (hok : ∀ g ∈ recentGroups twoYearsAgo groups, g.groupId ≠ G.groupId →
      ∃ pp, fetch g.groupId = .ok pp) :
    ∃ s', initializeService s now forceRefresh twoYearsAgo (.ok groups) fetch = .ok s'
      ∧ s'.allProductsWithPrices =
          ((recentGroups twoYearsAgo groups).filter
            fun g => g.groupId ≠ G.groupId).flatMap (groupOutcomeEntries fetch)
      ∧ ∀ g ∈ recentGroups twoYearsAgo groups, g.groupId ≠ G.groupId →
          ∀ ps prs, fetch g.groupId = .ok (ps, prs) →
            ∀ x ∈ groupEntries g ps prs, x ∈ s'.allProductsWithPrices := by
  unfold initializeService
  rw [hrun]
  simp only [Bool.false_eq_true, if_false]
  refine ⟨_, rfl, ?_, ?_⟩
  · rw [foldl_initStep_products]
    simp only [List.nil_append]
    apply bind_eq_filter_bind
    intro g hg hp
    have : g.groupId = G.groupId := by simpa using hp
    unfold groupOutcomeEntries
    rw [this, hfail]
  · intro g hg hne ps prs hfetch x hx
    rw [foldl_initStep_products]
    simp only [List.nil_append, List.mem_flatMap]
    refine ⟨g, hg, ?_⟩
    unfold groupOutcomeEntries
    rw [hfetch]
    exact hx

/-- Witness for claim C5: two retained sample groups, the fetch of group 2
failing and the fetch of group 1 succeeding. -/
theorem initializeService_isolates_group_failure_witness :
    ∃ s', initializeService (@initialState Int) 0 true sampleCutoff
        (.ok [sampleRecentGroup, sampleSecondGroup]) sampleFetch = .ok s'
      ∧ s'.allProductsWithPrices =
          ((recentGroups sampleCutoff [sampleRecentGroup, sampleSecondGroup]).filter
            fun g => g.groupId ≠ sampleSecondGroup.groupId).flatMap
              (groupOutcomeEntries sampleFetch)
      ∧ ∀ g ∈ recentGroups sampleCutoff [sampleRecentGroup, sampleSecondGroup],
          g.groupId ≠ sampleSecondGroup.groupId →
          ∀ ps prs, sampleFetch g.groupId = .ok (ps, prs) →
            ∀ x ∈ groupEntries g ps prs, x ∈ s'.allProductsWithPrices := by
  have hrecent : recentGroups sampleCutoff [sampleRecentGroup, sampleSecondGroup] =
      [sampleSecondGroup, sampleRecentGroup] := by
    simp [recentGroups, List.mergeSort, sampleCutoff, sampleRecentGroup, sampleSecondGroup]
  exact initializeService_isolates_group_failure (@initialState Int) 0 true sampleCutoff
    [sampleRecentGroup, sampleSecondGroup] sampleFetch sampleSecondGroup
    "Failed to fetch products for group 2: 500"
    (by decide)
    (by rw [hrecent]; decide)
    rfl
    (by
      rw [hrecent]
      intro g hg hne
      have : g = sampleSecondGroup ∨ g = sampleRecentGroup := by simpa using hg
      rcases this with h | h
      · subst h; exact absurd rfl hne
      · subst h
        exact ⟨([sampleProduct], [sampleNormalPrice, sampleFoilPrice]), rfl⟩)

/-! ## Claim C1 -/

/-- Claim C1, counterexample: a concrete service state whose snapshot is
non-empty and stale (the query time `21600000` is exactly
`lastBuildTime + validityWindow`), yet handling a query at that time leaves
the whole state — snapshot, index and `lastFetchTime` — unchanged: no rebuild
is triggered, contradicting the second half of the claim. The query path
never calls `initialize`; only the startup path does. -/
theorem query_at_stale_time_does_not_rebuild :
    sampleState.allProductsWithPrices ≠ []
    ∧ sampleState.lastFetchTime + sampleState.cacheValidityMs ≤ 21600000
    ∧ (handlePriceCommandService sampleScore sampleState "charizard etb").1 = sampleState
    ∧ (handlePriceCommandService sampleScore sampleState "charizard etb").1.lastFetchTime
        ≠ 21600000 := by
  refine ⟨by decide, by decide, rfl, by decide⟩

/-- Claim C1, amended: a query never triggers a rebuild — both query paths
leave the service state untouched regardless of the current time. The
freshness window instead guards `initialize` itself: a non-forced
`initialize` call with a non-empty snapshot at `now < lastFetchTime +
cacheValidityMs` returns the state unchanged, while any `initialize` call at
`now ≥ lastFetchTime + cacheValidityMs` (with a successful group fetch)
rebuilds, stamping `lastFetchTime = now` and swapping in the new index. -/
theorem cache_freshness_guards_rebuild :
    (∀ (Num : Type) (score : ProductWithPrice Num → String → Option ℚ)
        (s : ServiceState Num) (query : String),
        (handlePriceCommandService score s query).1 = s)
    ∧ (∀ (Num : Type) (score : ProductWithPrice Num → String → Option ℚ)
        (s : ServiceState Num) (productName : String),
        (handleChannelMessageService score s productName).1 = s)
    ∧ (∀ (Num : Type) (s : ServiceState Num) (now twoYearsAgo : Int)
        (groupsFetch : Except String (List TCGGroup)) (fetch : GroupFetch Num),
        s.allProductsWithPrices ≠ [] →
        now - s.lastFetchTime < s.cacheValidityMs →
        initializeService s now false twoYearsAgo groupsFetch fetch = .ok s)
    ∧ (∀ (Num : Type) (s : ServiceState Num) (now : Int) (forceRefresh : Bool)
        (twoYearsAgo : Int) (groups : List TCGGroup) (fetch : GroupFetch Num),
        s.cacheValidityMs ≤ now - s.lastFetchTime →
        ∃ s', initializeService s now forceRefresh twoYearsAgo (.ok groups) fetch = .ok s'
          ∧ s'.lastFetchTime = now
          ∧ s'.fuse = some s'.allProductsWithPrices) := by
  refine ⟨fun _ _ _ _ => rfl, fun _ _ _ _ => rfl, ?_, ?_⟩
  · intro Num s now twoYearsAgo groupsFetch fetch hne hfresh
    have hcache : usesCache s now false = true := by
      have : 0 < s.allProductsWithPrices.length := List.length_pos.mpr hne
      simp [usesCache, this, hfresh]
    unfold initializeService
    rw [hcache]
    simp
  · intro Num s now forceRefresh twoYearsAgo groups fetch hstale
    have hcache : usesCache s now forceRefresh = false := by
      simp only [usesCache, Bool.and_eq_false_iff]
      right
      simp only [decide_eq_false_iff_not, not_lt]
      omega
    unfold initializeService
    rw [hcache]
    simp only [Bool.false_eq_true, if_false]
    exact ⟨_, rfl, rfl, rfl⟩

/-- Witness for the amended claim C1: the two query paths at the sample state,
a fresh non-forced `initialize` call (no rebuild), and a stale `initialize`
call (rebuild stamped with the call time). -/
theorem cache_freshness_guards_rebuild_witness :
    (handlePriceCommandService sampleScore sampleState "charizard etb").1 = sampleState
    ∧ (handleChannelMessageService sampleScore sampleState "charizard etb").1 = sampleState
    ∧ initializeService sampleState 100 false sampleCutoff
        (.ok [sampleRecentGroup]) sampleFetch = .ok sampleState
    ∧ ∃ s', initializeService sampleState 21600000 false sampleCutoff
          (.ok [sampleRecentGroup]) sampleFetch = .ok s'
        ∧ s'.lastFetchTime = 21600000
        ∧ s'.fuse = some s'.allProductsWithPrices :=
  ⟨cache_freshness_guards_rebuild.1 Int sampleScore sampleState "charizard etb",
   cache_freshness_guards_rebuild.2.1 Int sampleScore sampleState "charizard etb",
   cache_freshness_guards_rebuild.2.2.1 Int sampleState 100 sampleCutoff
     (.ok [sampleRecentGroup]) sampleFetch (by decide) (by decide),
   cache_freshness_guards_rebuild.2.2.2 Int sampleState 21600000 false sampleCutoff
     [sampleRecentGroup] sampleFetch (by decide)⟩

/-! ## Claim C7 -/

/-- Claim C7: once the snapshot is built (`fuse` holds the indexed
collection), a search returns at most `limit` items, each drawn from the
indexed collection, ordered best match first (non-decreasing match score
along the result list, for any scoring function the abstracted fuzzy index
may use). -/
theorem searchProducts_spec {Num : Type}
    (score : ProductWithPrice Num → String → Option ℚ) (s : ServiceState Num)
    (docs : List (ProductWithPrice Num)) (query : String) (limit : Nat)
    (h : s.fuse = some docs) :
    (searchProducts score s query limit).1.length ≤ limit
    ∧ (∀ p ∈ (searchProducts score s query limit).1, p ∈ docs)
    ∧ (searchProducts score s query limit).1.Pairwise
        (fun a b => ∀ sa sb, score a (searchCleanQuery query) = some sa →
          score b (searchCleanQuery query) = some sb → sa ≤ sb) := by
  simp only [searchProducts, h]
  unfold fuseSearch
  set cq := searchCleanQuery query with hcq
  set scored := docs.filterMap (fun p => (score p cq).map fun sc => (sc, p)) with hscored
  set sorted := scored.mergeSort (fun a b => decide (a.1 ≤ b.1)) with hsorted
  have hmemscored : ∀ z ∈ scored, z.2 ∈ docs ∧ score z.2 cq = some z.1 := by
    intro z hz
    rw [hscored, List.mem_filterMap] at hz
    obtain ⟨a, ha, heq⟩ := hz
    cases hsc : score a cq with
    | none => rw [hsc] at heq; simp at heq
    | some sc =>
      rw [hsc] at heq
      have hz2 : z = (sc, a) := by
        have := heq.symm
        simpa using this
      subst hz2
      exact ⟨ha, hsc⟩
  have hmemsorted : ∀ z ∈ sorted, z.2 ∈ docs ∧ score z.2 cq = some z.1 := by
    intro z hz
    exact hmemscored z (((List.mergeSort_perm scored _).mem_iff).mp (hsorted ▸ hz))
  have hmemtake : ∀ z ∈ sorted.take limit, z.2 ∈ docs ∧ score z.2 cq = some z.1 :=
    fun z hz => hmemsorted z ((List.take_sublist limit sorted).mem hz)
  refine ⟨?_, ?_, ?_⟩
  · rw [List.length_map, List.length_take]
    exact min_le_left _ _
  · intro p hp
    rw [List.mem_map] at hp
    obtain ⟨z, hz, rfl⟩ := hp
    exact (hmemtake z hz).1
  · have hsortedpw : sorted.Pairwise fun a b => decide (a.1 ≤ b.1) = true := by
      rw [hsorted]
      apply List.sorted_mergeSort
      · intro a b c h1 h2
        simp only [decide_eq_true_eq] at *
        exact le_trans h1 h2
      · intro a b
        rcases le_total a.1 b.1 with h' | h' <;> simp [h']
    have htakepw := hsortedpw.sublist (List.take_sublist limit sorted)
    rw [List.pairwise_map]
    refine htakepw.imp_of_mem ?_
    intro a b ha hb hab sa sb hsa hsb
    have h2a := (hmemtake a ha).2
    have h2b := (hmemtake b hb).2
    rw [h2a] at hsa
    rw [h2b] at hsb
    injection hsa with hsa
    injection hsb with hsb
    subst hsa
    subst hsb
    simpa using hab

/-- Witness for claim C7 at the sample built state. -/
theorem searchProducts_spec_witness :
    (searchProducts sampleScore sampleState "charizard etb" 1).1.length ≤ 1
    ∧ (∀ p ∈ (searchProducts sampleScore sampleState "charizard etb" 1).1,
        p ∈ [sampleEntry])
    ∧ (searchProducts sampleScore sampleState "charizard etb" 1).1.Pairwise
        (fun a b => ∀ sa sb,
          sampleScore a (searchCleanQuery "charizard etb") = some sa →
          sampleScore b (searchCleanQuery "charizard etb") = some sb → sa ≤ sb) :=
  searchProducts_spec sampleScore sampleState [sampleEntry] "charizard etb" 1 rfl

/-! ## Claim C2: helper lemmas on the cleanup primitives -/

theorem toNat_ofNat_valid {n : Nat} (hv : n.isValidChar) : (Char.ofNat n).toNat = n := by
  rw [Char.ofNat, dif_pos hv]
  simp [Char.ofNatAux, Char.toNat, UInt32.toNat, BitVec.toNat_ofNatLt]

theorem toLower_eq_of_gt {c d : Char} (hd : 122 < d.toNat) (h : c.toLower = d) : c = d := by
  unfold Char.toLower at h
  simp only [ge_iff_le] at h
  split at h
  · exfalso
    rename_i hrange
    have hv : (c.toNat + 32).isValidChar := by
      left
      omega
    have hn : (Char.ofNat (c.toNat + 32)).toNat = c.toNat + 32 := toNat_ofNat_valid hv
    rw [h] at hn
    omega
  · exact h

theorem jsLower_eq_of_gt {c d : Char} (hd : 122 < d.toNat) (h : jsLower c = d) :
    c = d ∨ (c = 'É' ∧ d = 'é') := by
  unfold jsLower at h
  split at h
  · rename_i hc
    exact Or.inr ⟨hc, h.symm⟩
  · exact Or.inl (toLower_eq_of_gt hd h)

theorem matchPrefixCI_mem {pat s r : List Char} (h : matchPrefixCI pat s = some r) :
    ∀ pc ∈ pat, ∃ c ∈ s, jsLower c = jsLower pc := by
  induction pat generalizing s with
  | nil => simp
  | cons p ps ih =>
    cases s with
    | nil => simp [matchPrefixCI] at h
    | cons c cs =>
      simp only [matchPrefixCI] at h
      split at h
      · rename_i heq
        intro pc hpc
        rcases List.mem_cons.mp hpc with hpc' | hpc'
        · exact ⟨c, List.mem_cons_self c cs, hpc' ▸ heq⟩
        · obtain ⟨c', hc', he⟩ := ih h pc hpc'
          exact ⟨c', List.mem_cons_of_mem c hc', he⟩
      · simp at h

theorem stripPrefixCI_id_of_absent {pat s : List Char} {pc : Char} (hpc : pc ∈ pat)
    (habs : ∀ c ∈ s, jsLower c ≠ jsLower pc) : stripPrefixCI pat s = s := by
  unfold stripPrefixCI
  cases hm : matchPrefixCI pat s with
  | none => rfl
  | some r =>
    obtain ⟨c, hc, he⟩ := matchPrefixCI_mem hm pc hpc
    exact absurd he (habs c hc)

theorem stripPrefixCI_id_of_not_starts {pat s : List Char}
    (h : startsWithCI pat s = false) : stripPrefixCI pat s = s := by
  unfold startsWithCI at h
  unfold stripPrefixCI
  cases hm : matchPrefixCI pat s with
  | none => rfl
  | some r => rw [hm] at h; simp at h

theorem dropWs_suffix (s : List Char) : dropWs s <:+ s := by
  induction s with
  | nil => exact List.suffix_refl []
  | cons c cs ih =>
    unfold dropWs
    split
    · exact ih.trans (List.suffix_cons c cs)
    · exact List.suffix_refl _

theorem matchPrefixCI_suffix {pat s r : List Char} (h : matchPrefixCI pat s = some r) :
    r <:+ s := by
  induction pat generalizing s with
  | nil =>
    simp only [matchPrefixCI, Option.some_inj] at h
    exact h ▸ List.suffix_refl s
  | cons p ps ih =>
    cases s with
    | nil => simp [matchPrefixCI] at h
    | cons c cs =>
      simp only [matchPrefixCI] at h
      split at h
      · exact (ih h).trans (List.suffix_cons c cs)
      · simp at h

theorem stripPrefixCI_suffix (pat s : List Char) : stripPrefixCI pat s <:+ s := by
  unfold stripPrefixCI
  cases hm : matchPrefixCI pat s with
  | none => exact List.suffix_refl s
  | some r => exact (dropWs_suffix r).trans (matchPrefixCI_suffix hm)

/-- Case-insensitive occurrence test: whether the regex `/pat/i` matches
anywhere in `s` (used to state when the `Pokemon TCG:` prefix can never be
exposed by the other prefix strips). -/
def containsCI (pat : List Char) : List Char → Bool
  | [] => startsWithCI pat []
  | c :: cs => startsWithCI pat (c :: cs) || containsCI pat cs

theorem containsCI_suffix_false {pat s t : List Char} (h : containsCI pat s = false)
    (hsuf : t <:+ s) : containsCI pat t = false := by
  obtain ⟨u, rfl⟩ := hsuf
  induction u with
  | nil => exact h
  | cons a u ih =>
    rw [List.cons_append] at h
    simp only [containsCI, Bool.or_eq_false_iff] at h
    exact ih h.2

theorem containsCI_head_false {pat s : List Char} (h : containsCI pat s = false) :
    startsWithCI pat s = false := by
  cases s with
  | nil => exact h
  | cons c cs =>
    simp only [containsCI, Bool.or_eq_false_iff] at h
    exact h.1

theorem dashToHyphen_id {s : List Char} (h : '—' ∉ s) : dashToHyphen s = s := by
  unfold dashToHyphen
  induction s with
  | nil => rfl
  | cons c cs ih =>
    rw [List.map_cons]
    have hc : c ≠ '—' := fun he => h (by simp [he])
    rw [if_neg hc, ih fun hm => h (List.mem_cons_of_mem c hm)]

theorem replaceMojibakeDash_cons_ne {c : Char} {cs : List Char} (h : c ≠ 'Γ') :
    replaceMojibakeDash (c :: cs) = c :: replaceMojibakeDash cs := by
  rw [replaceMojibakeDash.eq_def]
  split
  · rename_i heq
    injection heq with h1 h2
    exact absurd h1 h
  · rename_i heq
    injection heq with h1 h2
    rw [h1, h2]
  · rename_i heq
    exact absurd heq (by simp)

theorem replaceMojibakeDash_id {s : List Char} (h : 'Γ' ∉ s) :
    replaceMojibakeDash s = s := by
  induction s with
  | nil => rfl
  | cons c cs ih =>
    have hc : c ≠ 'Γ' := fun he => h (by simp [he])
    rw [replaceMojibakeDash_cons_ne hc, ih fun hm => h (List.mem_cons_of_mem c hm)]

theorem collapseWsAux_id {s : List Char} (hsp : ∀ c ∈ s, jsWs c = true → c = ' ')
    (hrun : s.Chain' fun a b => ¬(jsWs a = true ∧ jsWs b = true)) :
    ∀ b : Bool, (b = true → ∀ h ∈ s.head?, jsWs h = false) → collapseWsAux b s = s := by
  induction s with
  | nil => intro b _; rfl
  | cons c cs ih =>
    intro b hb
    obtain ⟨hhead, htail⟩ := List.chain'_cons'.mp hrun
    have ihs : ∀ x ∈ cs, jsWs x = true → x = ' ' :=
      fun x hx => hsp x (List.mem_cons_of_mem c hx)
    unfold collapseWsAux
    by_cases hc : jsWs c = true
    · have hsp1 : c = ' ' := hsp c (List.mem_cons_self c cs) hc
      cases b with
      | true =>
        have := hb rfl c rfl
        rw [hc] at this
        exact absurd this (by simp)
      | false =>
        rw [if_pos hc, if_neg (by simp)]
        have htl : collapseWsAux true cs = cs := by
          apply ih ihs htail
          intro _ x hx
          have := hhead x hx
          rcases hw : jsWs x with _ | _
          · rfl
          · exact absurd ⟨hc, hw⟩ this
        rw [htl, hsp1]
    · rw [if_neg hc]
      have htl : collapseWsAux false cs = cs := by
        apply ih ihs htail
        intro hfalse
        exact absurd hfalse (by simp)
      rw [htl]

theorem collapseWs_id {s : List Char} (hsp : ∀ c ∈ s, jsWs c = true → c = ' ')
    (hrun : s.Chain' fun a b => ¬(jsWs a = true ∧ jsWs b = true)) :
    collapseWs s = s :=
  collapseWsAux_id hsp hrun false (fun hfalse => absurd hfalse (by simp))

/-- Executable check that no two adjacent characters are both whitespace. -/
def noWsRun : List Char → Bool
  | [] => true
  | [_] => true
  | a :: b :: rest => !(jsWs a && jsWs b) && noWsRun (b :: rest)

theorem chain'_of_noWsRun : ∀ {l : List Char}, noWsRun l = true →
    l.Chain' fun a b => ¬(jsWs a = true ∧ jsWs b = true) := by
  intro l
  induction l with
  | nil => intro _; exact List.chain'_nil
  | cons a l ih =>
    cases l with
    | nil => intro _; simp
    | cons b rest =>
      intro h
      simp only [noWsRun, Bool.and_eq_true] at h
      refine List.chain'_cons.mpr ⟨?_, ih h.2⟩
      intro hc
      rw [hc.1, hc.2] at h
      simpa using h.1

/-! ## Claim C2: the claim and its correction -/

/-- Claim C2, counterexample: the preprocessing `searchProducts` applies to a
query does not equal the normalizer raw-cleanup pass. On the input
`"Pokemon TCG: Surging Sparks Booster Bundle"` the raw-cleanup pass strips
the `Pokemon TCG:` prefix, but the query cleanup in `searchProducts` has no
pattern for that prefix (it only strips the two long-form prefixes and
`PTCG:`) and returns the input unchanged. -/
theorem searchCleanQuery_ne_rawCleanup :
    searchCleanQuery "Pokemon TCG: Surging Sparks Booster Bundle" =
      "Pokemon TCG: Surging Sparks Booster Bundle"
    ∧ rawCleanupStr "Pokemon TCG: Surging Sparks Booster Bundle" =
      "Surging Sparks Booster Bundle"
    ∧ searchCleanQuery "Pokemon TCG: Surging Sparks Booster Bundle" ≠
      rawCleanupStr "Pokemon TCG: Surging Sparks Booster Bundle" := by
  refine ⟨by decide, by decide, by decide⟩

/-- Claim C2, amended: the two cleanups differ on the `Pokemon TCG:` prefix
(stripped only by the normalizer), on the em-dash and the accented long-form
prefix (the `searchProducts` patterns for these are mojibake byte sequences
that can never match the intended characters), and on whitespace collapsing
(absent from `searchProducts`). On every query free of those distinguishing
features — no occurrence of `é`/`É`/`—`/`Γ`/`├`, no case-insensitive
occurrence of `Pokemon TCG:`, and all whitespace being single spaces — the
`searchProducts` preprocessing does agree with the Text Normalizer's
raw-cleanup pass. -/
theorem searchCleanQuery_eq_rawCleanup_of (q : String)
    (hchars : ∀ c ∈ q.data, c ≠ 'é' ∧ c ≠ 'É' ∧ c ≠ '—' ∧ c ≠ 'Γ' ∧ c ≠ '├')
    (hno : containsCI "Pokemon TCG:".data q.data = false)
    (hsp : ∀ c ∈ q.data, jsWs c = true → c = ' ')
    (hrun : q.data.Chain' fun a b => ¬(jsWs a = true ∧ jsWs b = true)) :
    searchCleanQuery q = rawCleanupStr q := by
  have h1 : stripPrefixCI "Pokémon Trading Card Game:".data q.data = q.data := by
    apply stripPrefixCI_id_of_absent (show 'é' ∈ "Pokémon Trading Card Game:".data by decide)
    intro c hc he
    have he' : jsLower c = 'é' := by
      rw [he]
      decide
    rcases jsLower_eq_of_gt (by decide) he' with h | h
    · exact (hchars c hc).1 h
    · exact (hchars c hc).2.1 h.1
  have h2 : stripPrefixCI "Pok├⌐mon Trading Card Game:".data q.data = q.data := by
    apply stripPrefixCI_id_of_absent (show '├' ∈ "Pok├⌐mon Trading Card Game:".data by decide)
    intro c hc he
    have he' : jsLower c = '├' := by
      rw [he]
      decide
    rcases jsLower_eq_of_gt (by decide) he' with h | h
    · exact (hchars c hc).2.2.2.2 h
    · exact absurd h.2 (by decide)
  have h3 : stripPrefixCI "Pokemon TCG:".data
      (stripPrefixCI "Pokemon Trading Card Game:".data q.data) =
      stripPrefixCI "Pokemon Trading Card Game:".data q.data :=
    stripPrefixCI_id_of_not_starts (containsCI_head_false
      (containsCI_suffix_false hno (stripPrefixCI_suffix _ _)))
  have hsuf : stripPrefixCI "PTCG:".data
      (stripPrefixCI "Pokemon Trading Card Game:".data q.data) <:+ q.data :=
    (stripPrefixCI_suffix _ _).trans (stripPrefixCI_suffix _ _)
  have hsub := hsuf.sublist
  have hdash : dashToHyphen (stripPrefixCI "PTCG:".data
      (stripPrefixCI "Pokemon Trading Card Game:".data q.data)) =
      stripPrefixCI "PTCG:".data
        (stripPrefixCI "Pokemon Trading Card Game:".data q.data) :=
    dashToHyphen_id fun hm => (hchars '—' (hsub.mem hm)).2.2.1 rfl
  have hmoji : replaceMojibakeDash (stripPrefixCI "PTCG:".data
      (stripPrefixCI "Pokemon Trading Card Game:".data q.data)) =
      stripPrefixCI "PTCG:".data
        (stripPrefixCI "Pokemon Trading Card Game:".data q.data) :=
    replaceMojibakeDash_id fun hm => (hchars 'Γ' (hsub.mem hm)).2.2.2.1 rfl
  have hcoll : collapseWs (stripPrefixCI "PTCG:".data
      (stripPrefixCI "Pokemon Trading Card Game:".data q.data)) =
      stripPrefixCI "PTCG:".data
        (stripPrefixCI "Pokemon Trading Card Game:".data q.data) :=
    collapseWs_id (fun c hc hw => hsp c (hsub.mem hc) hw) (hrun.suffix hsuf)
  simp only [searchCleanQuery, rawCleanupStr, rawCleanup]
  rw [h1, h2, h3, hdash, hmoji, hcoll]

/-- Witness for the amended claim C2: a long-form-prefixed query on which the
two cleanups agree. -/
theorem searchCleanQuery_eq_rawCleanup_of_witness :
    searchCleanQuery "Pokemon Trading Card Game: Charizard ex Premium Collection" =
      rawCleanupStr "Pokemon Trading Card Game: Charizard ex Premium Collection" :=
  searchCleanQuery_eq_rawCleanup_of
    "Pokemon Trading Card Game: Charizard ex Premium Collection"
    (by decide) (by decide) (by decide) (chain'_of_noWsRun (by decide))

/-! ## Claim C3: helper lemmas on abbreviation expansion -/

/-- Fuel-indexed test for a remaining whole-word occurrence of `ab` (the same
scan as `replaceWordFuel`, answering whether any step would match). -/
def hasWordMatchFuel (ab : List Char) : Nat → Bool → List Char → Bool
  | 0, _, _ => false
  | _ + 1, _, [] => false
  | fuel + 1, prevW, c :: cs =>
    match wordMatchCI ab prevW (c :: cs) with
    | some _ => true
    | none => hasWordMatchFuel ab fuel (wordChar c) cs

/-- Whether the whole-word regex `/\bab\b/i` matches anywhere in `s`, with
`prevW` the word-character status of the position before `s`. -/
def hasWordMatchCI (ab : List Char) (prevW : Bool) (s : List Char) : Bool :=
  hasWordMatchFuel ab s.length prevW s

/-- Whether one of the four catalog prefixes matches at the start of `s`. -/
def startsWithAnyPrefixCI (s : List Char) : Bool :=
  startsWithCI "Pokémon Trading Card Game:".data s ||
  startsWithCI "Pokemon Trading Card Game:".data s ||
  startsWithCI "Pokemon TCG:".data s ||
  startsWithCI "PTCG:".data s

theorem wordMatchCI_suffix {ab : List Char} {pw : Bool} {s rest : List Char}
    (h : wordMatchCI ab pw s = some rest) : rest <:+ s := by
  unfold wordMatchCI at h
  cases ab with
  | nil => simp at h
  | cons a as =>
    simp only at h
    split at h
    · simp at h
    · cases hm : matchPrefixCI (a :: as) s with
      | none => rw [hm] at h; simp at h
      | some r =>
        rw [hm] at h
        cases r with
        | nil =>
          simp only [Option.some_inj] at h
          exact h ▸ List.nil_suffix
        | cons c cs =>
          simp only at h
          split at h
          · simp at h
          · simp only [Option.some_inj] at h
            exact h ▸ matchPrefixCI_suffix hm

theorem replaceWordFuel_mem {ab full : List Char} :
    ∀ {fuel : Nat} {pw : Bool} {s : List Char} {c : Char},
      c ∈ replaceWordFuel ab full fuel pw s → c ∈ s ∨ c ∈ full := by
  intro fuel
  induction fuel with
  | zero => intro pw s c h; exact Or.inl h
  | succ n ih =>
    intro pw s c h
    cases s with
    | nil => rw [replaceWordFuel_nil] at h; simp at h
    | cons x cs =>
      simp only [replaceWordFuel] at h
      cases hm : wordMatchCI ab pw (x :: cs) with
      | some rest =>
        rw [hm] at h
        rcases List.mem_append.mp h with h' | h'
        · exact Or.inr h'
        · rcases ih h' with h'' | h''
          · exact Or.inl ((wordMatchCI_suffix hm).sublist.mem h'')
          · exact Or.inr h''
      | none =>
        rw [hm] at h
        rcases List.mem_cons.mp h with h' | h'
        · exact Or.inl (h' ▸ List.mem_cons_self x cs)
        · rcases ih h' with h'' | h''
          · exact Or.inl (List.mem_cons_of_mem x h'')
          · exact Or.inr h''

theorem replaceWordFuel_id_of_no_match {ab full : List Char} :
    ∀ {fuel : Nat} {pw : Bool} {s : List Char},
      hasWordMatchFuel ab fuel pw s = false → replaceWordFuel ab full fuel pw s = s := by
  intro fuel
  induction fuel with
  | zero => intro pw s _; rfl
  | succ n ih =>
    intro pw s h
    cases s with
    | nil => rw [replaceWordFuel_nil]
    | cons x cs =>
      simp only [hasWordMatchFuel] at h
      simp only [replaceWordFuel]
      cases hm : wordMatchCI ab pw (x :: cs) with
      | some rest => rw [hm] at h; simp at h
      | none =>
        rw [hm] at h
        rw [ih h]

theorem replaceWordFuel_ne_nil {ab full : List Char} (hfull : full ≠ []) :
    ∀ {fuel : Nat} {pw : Bool} {s : List Char}, s ≠ [] →
      replaceWordFuel ab full fuel pw s ≠ [] := by
  intro fuel
  cases fuel with
  | zero => intro pw s hs; exact hs
  | succ n =>
    intro pw s hs
    cases s with
    | nil => exact absurd rfl hs
    | cons x cs =>
      simp only [replaceWordFuel]
      cases hm : wordMatchCI ab pw (x :: cs) with
      | some rest =>
        simp only []
        intro hcontra
        rcases List.append_eq_nil.mp hcontra with ⟨h1, _⟩
        exact hfull h1
      | none => simp

theorem getLast?_cons_ne {α : Type} {x : α} {l : List α} (h : l ≠ []) :
    (x :: l).getLast? = l.getLast? := by
  obtain ⟨y, hy⟩ := Option.isSome_iff_exists.mp (List.getLast?_isSome.mpr h)
  rw [List.getLast?_cons, hy]
  simp

theorem getLast?_append_ne {α : Type} {l l' : List α} (h : l' ≠ []) :
    (l ++ l').getLast? = l'.getLast? := by
  obtain ⟨y, hy⟩ := Option.isSome_iff_exists.mp (List.getLast?_isSome.mpr h)
  rw [List.getLast?_append, hy]
  rfl

theorem suffix_getLast? {α : Type} {l s : List α} (h : s <:+ l) (hne : s ≠ []) :
    l.getLast? = s.getLast? := by
  obtain ⟨u, rfl⟩ := h
  exact getLast?_append_ne hne

theorem replaceWordFuel_head {ab full : List Char} (hfull : full ≠ []) :
    ∀ {fuel : Nat} {pw : Bool} {s : List Char},
      (replaceWordFuel ab full fuel pw s).head? = s.head? ∨
      (replaceWordFuel ab full fuel pw s).head? = full.head? := by
  intro fuel pw s
  cases fuel with
  | zero => exact Or.inl rfl
  | succ n =>
    cases s with
    | nil => rw [replaceWordFuel_nil]; exact Or.inl rfl
    | cons x cs =>
      simp only [replaceWordFuel]
      cases hm : wordMatchCI ab pw (x :: cs) with
      | some rest =>
        right
        cases full with
        | nil => exact absurd rfl hfull
        | cons f fs => rfl
      | none => exact Or.inl rfl

theorem replaceWordFuel_getLast {ab full : List Char} (hfull : full ≠ []) :
    ∀ {fuel : Nat} {pw : Bool} {s : List Char}, s.length ≤ fuel →
      (replaceWordFuel ab full fuel pw s).getLast? = s.getLast? ∨
      (replaceWordFuel ab full fuel pw s).getLast? = full.getLast? := by
  intro fuel
  induction fuel with
  | zero => intro pw s _; exact Or.inl rfl
  | succ n ih =>
    intro pw s hf
    cases s with
    | nil => rw [replaceWordFuel_nil]; exact Or.inl rfl
    | cons x cs =>
      simp only [List.length_cons] at hf
      simp only [replaceWordFuel]
      cases hm : wordMatchCI ab pw (x :: cs) with
      | some rest =>
        have hrl : rest.length ≤ n := by
          rcases wordMatchCI_length hm with h' | h'
          · simp at h'; omega
          · simp at h'
        cases hrest : rest with
        | nil =>
          right
          dsimp only
          rw [replaceWordFuel_nil, List.append_nil]
        | cons r rs =>
          rw [← hrest]
          have hrne : rest ≠ [] := by rw [hrest]; simp
          have hout : replaceWordFuel ab full n true rest ≠ [] :=
            replaceWordFuel_ne_nil hfull hrne
          rw [getLast?_append_ne hout]
          rcases ih hrl with h' | h'
          · left
            rw [h']
            exact (suffix_getLast? (wordMatchCI_suffix hm) hrne).symm
          · exact Or.inr h'
      | none =>
        cases hcs : cs with
        | nil =>
          subst hcs
          rw [replaceWordFuel_nil]
          exact Or.inl rfl
        | cons c2 cs2 =>
          rw [← hcs]
          have hcsne : cs ≠ [] := by rw [hcs]; simp
          have hout : replaceWordFuel ab full n (wordChar x) cs ≠ [] :=
            replaceWordFuel_ne_nil hfull hcsne
          rw [getLast?_cons_ne hout, getLast?_cons_ne hcsne]
          exact ih (by omega)

theorem replaceWordFuel_chain {ab full : List Char} (hfull : full ≠ [])
    (hfc : full.Chain' fun a b => ¬(jsWs a = true ∧ jsWs b = true))
    (hfh : ∀ h ∈ full.head?, jsWs h = false)
    (hfl : ∀ h ∈ full.getLast?, jsWs h = false) :
    ∀ {fuel : Nat} {pw : Bool} {s : List Char}, s.length ≤ fuel →
      s.Chain' (fun a b => ¬(jsWs a = true ∧ jsWs b = true)) →
      (replaceWordFuel ab full fuel pw s).Chain'
        fun a b => ¬(jsWs a = true ∧ jsWs b = true) := by
  intro fuel
  induction fuel with
  | zero => intro pw s _ hs; exact hs
  | succ n ih =>
    intro pw s hf hs
    cases s with
    | nil => rw [replaceWordFuel_nil]; exact List.chain'_nil
    | cons x cs =>
      simp only [List.length_cons] at hf
      simp only [replaceWordFuel]
      cases hm : wordMatchCI ab pw (x :: cs) with
      | some rest =>
        have hrl : rest.length ≤ n := by
          rcases wordMatchCI_length hm with h' | h'
          · simp at h'; omega
          · simp at h'
        refine List.chain'_append.mpr ⟨hfc, ih hrl (hs.suffix (wordMatchCI_suffix hm)), ?_⟩
        intro a ha b _
        intro hcontra
        have := hfl a ha
        rw [this] at hcontra
        simp at hcontra
      | none =>
        obtain ⟨hhead, htail⟩ := List.chain'_cons'.mp hs
        refine List.chain'_cons'.mpr ⟨?_, ih (by omega) htail⟩
        intro y hy
        by_cases hx : jsWs x = true
        · rcases replaceWordFuel_head hfull with h' | h'
          · rw [h'] at hy
            exact hhead y hy
          · rw [h'] at hy
            have := hfh y hy
            intro hcontra
            rw [this] at hcontra
            simp at hcontra
        · intro hcontra
          exact hx hcontra.1

theorem collapseWsAux_mem : ∀ {b : Bool} {s : List Char} {c : Char},
    c ∈ collapseWsAux b s → c ∈ s ∨ c = ' ' := by
  intro b s
  induction s generalizing b with
  | nil => intro c h; simp [collapseWsAux] at h
  | cons x cs ih =>
    intro c h
    simp only [collapseWsAux] at h
    by_cases hx : jsWs x = true
    · rw [if_pos hx] at h
      cases b with
      | true =>
        simp only [if_pos rfl] at h
        rcases ih h with h' | h'
        · exact Or.inl (List.mem_cons_of_mem x h')
        · exact Or.inr h'
      | false =>
        simp only [Bool.false_eq_true, if_false] at h
        rcases List.mem_cons.mp h with h' | h'
        · exact Or.inr h'
        · rcases ih h' with h'' | h''
          · exact Or.inl (List.mem_cons_of_mem x h'')
          · exact Or.inr h''
    · rw [if_neg hx] at h
      rcases List.mem_cons.mp h with h' | h'
      · exact Or.inl (h' ▸ List.mem_cons_self x cs)
      · rcases ih h' with h'' | h''
        · exact Or.inl (List.mem_cons_of_mem x h'')
        · exact Or.inr h''

theorem collapseWsAux_ws_space : ∀ {b : Bool} {s : List Char} {c : Char},
    c ∈ collapseWsAux b s → jsWs c = true → c = ' ' := by
  intro b s
  induction s generalizing b with
  | nil => intro c h; simp [collapseWsAux] at h
  | cons x cs ih =>
    intro c h hw
    simp only [collapseWsAux] at h
    by_cases hx : jsWs x = true
    · rw [if_pos hx] at h
      cases b with
      | true => exact ih h hw
      | false =>
        simp only [Bool.false_eq_true, if_false] at h
        rcases List.mem_cons.mp h with h' | h'
        · exact h'
        · exact ih h' hw
    · rw [if_neg hx] at h
      rcases List.mem_cons.mp h with h' | h'
      · exact absurd (h' ▸ hw) hx
      · exact ih h' hw

theorem collapseWsAux_head_true : ∀ {s : List Char},
    ∀ h ∈ (collapseWsAux true s).head?, jsWs h = false := by
  intro s
  induction s with
  | nil => intro h hh; simp [collapseWsAux] at hh
  | cons x cs ih =>
    intro h hh
    simp only [collapseWsAux] at hh
    by_cases hx : jsWs x = true
    · rw [if_pos hx, if_pos trivial] at hh
      exact ih h hh
    · rw [if_neg hx] at hh
      simp only [List.head?_cons, Option.mem_def, Option.some_inj] at hh
      subst hh
      simpa using hx

theorem collapseWsAux_chain : ∀ {b : Bool} {s : List Char},
    (collapseWsAux b s).Chain' fun a b => ¬(jsWs a = true ∧ jsWs b = true) := by
  intro b s
  induction s generalizing b with
  | nil => exact List.chain'_nil
  | cons x cs ih =>
    simp only [collapseWsAux]
    by_cases hx : jsWs x = true
    · rw [if_pos hx]
      cases b with
      | true => exact ih
      | false =>
        simp only [Bool.false_eq_true, if_false]
        refine List.chain'_cons'.mpr ⟨?_, ih⟩
        intro y hy
        have := collapseWsAux_head_true y hy
        intro hcontra
        rw [this] at hcontra
        simp at hcontra
    · rw [if_neg hx]
      refine List.chain'_cons'.mpr ⟨?_, ih⟩
      intro y _
      intro hcontra
      exact hx hcontra.1

theorem dropWs_head : ∀ {s : List Char}, ∀ h ∈ (dropWs s).head?, jsWs h = false := by
  intro s
  induction s with
  | nil => intro h hh; simp [dropWs] at hh
  | cons x cs ih =>
    intro h hh
    simp only [dropWs] at hh
    by_cases hx : jsWs x = true
    · rw [if_pos hx] at hh
      exact ih h hh
    · rw [if_neg hx] at hh
      simp only [List.head?_cons, Option.mem_def, Option.some_inj] at hh
      subst hh
      simpa using hx

theorem dropWs_eq_self {s : List Char} (h : ∀ c ∈ s.head?, jsWs c = false) :
    dropWs s = s := by
  cases s with
  | nil => rfl
  | cons x cs =>
    have := h x rfl
    simp only [dropWs]
    rw [if_neg (by simp [this])]

theorem jsTrim_mem {s : List Char} {c : Char} (h : c ∈ jsTrim s) : c ∈ s := by
  unfold jsTrim at h
  rw [List.mem_reverse] at h
  have h2 := (dropWs_suffix ((dropWs s).reverse)).sublist.mem h
  rw [List.mem_reverse] at h2
  exact (dropWs_suffix s).sublist.mem h2

theorem jsTrim_prefix_of_dropWs (s : List Char) : jsTrim s <+: dropWs s := by
  unfold jsTrim
  rw [← List.reverse_suffix, List.reverse_reverse]
  exact dropWs_suffix ((dropWs s).reverse)

theorem prefix_head? {α : Type} {l m : List α} (h : l <+: m) (hne : l ≠ []) :
    m.head? = l.head? := by
  obtain ⟨t, rfl⟩ := h
  cases l with
  | nil => exact absurd rfl hne
  | cons x xs => rfl

theorem jsTrim_head : ∀ {s : List Char}, ∀ h ∈ (jsTrim s).head?, jsWs h = false := by
  intro s h hh
  have hne : jsTrim s ≠ [] := by
    intro he
    rw [he] at hh
    simp at hh
  have := prefix_head? (jsTrim_prefix_of_dropWs s) hne
  rw [← this] at hh
  exact dropWs_head h hh

theorem jsTrim_getLast : ∀ {s : List Char}, ∀ h ∈ (jsTrim s).getLast?, jsWs h = false := by
  intro s h hh
  unfold jsTrim at hh
  rw [List.getLast?_reverse] at hh
  exact dropWs_head h hh

theorem jsTrim_chain {s : List Char}
    (hs : s.Chain' fun a b => ¬(jsWs a = true ∧ jsWs b = true)) :
    (jsTrim s).Chain' fun a b => ¬(jsWs a = true ∧ jsWs b = true) := by
  unfold jsTrim
  rw [List.chain'_reverse]
  exact (List.chain'_reverse.mpr (hs.suffix (dropWs_suffix s))).suffix
    (dropWs_suffix ((dropWs s).reverse))

theorem jsTrim_eq_self {s : List Char} (hh : ∀ c ∈ s.head?, jsWs c = false)
    (hl : ∀ c ∈ s.getLast?, jsWs c = false) : jsTrim s = s := by
  unfold jsTrim
  rw [dropWs_eq_self hh]
  rw [dropWs_eq_self (by intro c hc; rw [List.head?_reverse] at hc; exact hl c hc)]
  exact List.reverse_reverse s

theorem dash_not_mem_dashToHyphen (s : List Char) : '—' ∉ dashToHyphen s := by
  intro h
  unfold dashToHyphen at h
  rw [List.mem_map] at h
  obtain ⟨a, _, ha⟩ := h
  by_cases h' : a = '—'
  · rw [if_pos h'] at ha
    exact absurd ha (by decide)
  · rw [if_neg h'] at ha
    exact h' ha

theorem rawCleanup_ws_space (l : List Char) :
    ∀ c ∈ rawCleanup l, jsWs c = true → c = ' ' := by
  intro c hc hw
  simp only [rawCleanup] at hc
  exact collapseWsAux_ws_space (jsTrim_mem hc) hw

theorem rawCleanup_chain (l : List Char) :
    (rawCleanup l).Chain' fun a b => ¬(jsWs a = true ∧ jsWs b = true) := by
  simp only [rawCleanup]
  exact jsTrim_chain collapseWsAux_chain

theorem rawCleanup_head (l : List Char) :
    ∀ h ∈ (rawCleanup l).head?, jsWs h = false := by
  simp only [rawCleanup]
  exact jsTrim_head

theorem rawCleanup_getLast (l : List Char) :
    ∀ h ∈ (rawCleanup l).getLast?, jsWs h = false := by
  simp only [rawCleanup]
  exact jsTrim_getLast

theorem rawCleanup_no_dash (l : List Char) : '—' ∉ rawCleanup l := by
  intro hc
  simp only [rawCleanup] at hc
  rcases collapseWsAux_mem (jsTrim_mem hc) with h | h
  · exact dash_not_mem_dashToHyphen _ h
  · exact absurd h (by decide)

theorem replaceWordCI_id_of_no_match {ab full s : List Char}
    (h : hasWordMatchCI ab false s = false) : replaceWordCI ab full false s = s :=
  replaceWordFuel_id_of_no_match h

theorem expandAbbreviations_eq (s : List Char) :
    expandAbbreviations s =
      replaceWordCI "bb".data "Booster Box".data false
        (replaceWordCI "etb".data "Elite Trainer Box".data false
          (replaceWordCI "upc".data "Ultra Premium Collection".data false s)) := rfl

theorem replaceWord_props {ab full s : List Char}
    (hfne : full ≠ [])
    (hfsp : ∀ c ∈ full, jsWs c = true → c = ' ')
    (hfch : full.Chain' fun a b => ¬(jsWs a = true ∧ jsWs b = true))
    (hfh : ∀ h ∈ full.head?, jsWs h = false)
    (hfl : ∀ h ∈ full.getLast?, jsWs h = false)
    (hfd : '—' ∉ full)
    (hsp : ∀ c ∈ s, jsWs c = true → c = ' ')
    (hch : s.Chain' fun a b => ¬(jsWs a = true ∧ jsWs b = true))
    (hh : ∀ h ∈ s.head?, jsWs h = false)
    (hl : ∀ h ∈ s.getLast?, jsWs h = false)
    (hd : '—' ∉ s) :
    (∀ c ∈ replaceWordCI ab full false s, jsWs c = true → c = ' ')
    ∧ (replaceWordCI ab full false s).Chain'
        (fun a b => ¬(jsWs a = true ∧ jsWs b = true))
    ∧ (∀ h ∈ (replaceWordCI ab full false s).head?, jsWs h = false)
    ∧ (∀ h ∈ (replaceWordCI ab full false s).getLast?, jsWs h = false)
    ∧ '—' ∉ replaceWordCI ab full false s := by
  refine ⟨?_, ?_, ?_, ?_, ?_⟩
  · intro c hc hw
    rcases replaceWordFuel_mem hc with h' | h'
    · exact hsp c h' hw
    · exact hfsp c h' hw
  · exact replaceWordFuel_chain hfne hfch hfh hfl le_rfl hch
  · intro h hhd
    have hciF : replaceWordCI ab full false s =
        replaceWordFuel ab full s.length false s := rfl
    rw [hciF] at hhd
    rcases @replaceWordFuel_head ab full hfne s.length false s with h' | h'
    · rw [h'] at hhd
      exact hh h hhd
    · rw [h'] at hhd
      exact hfh h hhd
  · intro h hlt
    have hciF : replaceWordCI ab full false s =
        replaceWordFuel ab full s.length false s := rfl
    rw [hciF] at hlt
    rcases @replaceWordFuel_getLast ab full hfne s.length false s le_rfl with h' | h'
    · rw [h'] at hlt
      exact hl h hlt
    · rw [h'] at hlt
      exact hfl h hlt
  · intro hc
    rcases replaceWordFuel_mem hc with h' | h'
    · exact hd h'
    · exact hfd h'

theorem string_mk_data (l : List Char) : (String.mk l).data = l := rfl

theorem string_mk_eta (y : String) : String.mk y.data = y := rfl

theorem cleanProductName_mk (y : String) :
    cleanProductName y = ⟨expandAbbreviations (rawCleanup y.data)⟩ := rfl

theorem cleanProductName_data (x : String) :
    (cleanProductName x).data = expandAbbreviations (rawCleanup x.data) := by
  rw [cleanProductName_mk]

/-! ## Claim C3: the claim and its correction -/

/-- Claim C3, counterexample: `cleanProductName` is not idempotent. The input
`" PTCG: Destined Rivals"` carries a leading space, so on the first pass no
prefix regex matches (they are anchored at the very start); the trim then
moves `PTCG:` to the start, and only the second pass strips it. -/
theorem cleanProductName_not_idempotent :
    cleanProductName " PTCG: Destined Rivals" = "PTCG: Destined Rivals"
    ∧ cleanProductName (cleanProductName " PTCG: Destined Rivals") = "Destined Rivals"
    ∧ cleanProductName (cleanProductName " PTCG: Destined Rivals") ≠
        cleanProductName " PTCG: Destined Rivals" := by
  refine ⟨by decide, by decide, by decide⟩

/-- Claim C3, amended: `cleanProductName` is idempotent on every input whose
cleaned form does not itself begin with one of the four catalog prefixes
(case-insensitively) — the only way a second pass can act, since cleaning can
move a prefix to the start of the string but leaves no em-dash, no whitespace
run, no edge whitespace and (stated here as the second proviso) no whole-word
abbreviation occurrence in its output. -/
theorem cleanProductName_idempotent_of (x : String)
    (hpre : startsWithAnyPrefixCI (cleanProductName x).data = false)
    (hab : ∀ af ∈ ABBREVIATIONS,
      hasWordMatchCI af.1.data false (cleanProductName x).data = false) :
    cleanProductName (cleanProductName x) = cleanProductName x := by
  have hupc : ("upc", "Ultra Premium Collection") ∈ ABBREVIATIONS := by decide
  have hetb : ("etb", "Elite Trainer Box") ∈ ABBREVIATIONS := by decide
  have hbb : ("bb", "Booster Box") ∈ ABBREVIATIONS := by decide
  have hyd : (cleanProductName x).data =
      replaceWordCI "bb".data "Booster Box".data false
        (replaceWordCI "etb".data "Elite Trainer Box".data false
          (replaceWordCI "upc".data "Ultra Premium Collection".data false
            (rawCleanup x.data))) := by
    rw [cleanProductName_data, expandAbbreviations_eq]
  have h1 := @replaceWord_props "upc".data "Ultra Premium Collection".data
    (rawCleanup x.data)
    (by decide) (by decide) (chain'_of_noWsRun (by decide))
    (by decide) (by decide) (by decide)
    (rawCleanup_ws_space x.data) (rawCleanup_chain x.data) (rawCleanup_head x.data)
    (rawCleanup_getLast x.data) (rawCleanup_no_dash x.data)
  have h2 := @replaceWord_props "etb".data "Elite Trainer Box".data
    (replaceWordCI "upc".data "Ultra Premium Collection".data false (rawCleanup x.data))
    (by decide) (by decide) (chain'_of_noWsRun (by decide))
    (by decide) (by decide) (by decide)
    h1.1 h1.2.1 h1.2.2.1 h1.2.2.2.1 h1.2.2.2.2
  have h3 := @replaceWord_props "bb".data "Booster Box".data
    (replaceWordCI "etb".data "Elite Trainer Box".data false
      (replaceWordCI "upc".data "Ultra Premium Collection".data false
        (rawCleanup x.data)))
    (by decide) (by decide) (chain'_of_noWsRun (by decide))
    (by decide) (by decide) (by decide)
    h2.1 h2.2.1 h2.2.2.1 h2.2.2.2.1 h2.2.2.2.2
  rw [← hyd] at h3
  simp only [startsWithAnyPrefixCI, Bool.or_eq_false_iff] at hpre
  have hraw : rawCleanup (cleanProductName x).data = (cleanProductName x).data := by
    simp only [rawCleanup]
    rw [stripPrefixCI_id_of_not_starts hpre.1.1.1,
        stripPrefixCI_id_of_not_starts hpre.1.1.2,
        stripPrefixCI_id_of_not_starts hpre.1.2,
        stripPrefixCI_id_of_not_starts hpre.2,
        dashToHyphen_id h3.2.2.2.2,
        collapseWs_id h3.1 h3.2.1,
        jsTrim_eq_self h3.2.2.1 h3.2.2.2.1]
  have hexp : expandAbbreviations (cleanProductName x).data =
      (cleanProductName x).data := by
    rw [expandAbbreviations_eq,
        replaceWordCI_id_of_no_match (hab ("upc", "Ultra Premium Collection") hupc),
        replaceWordCI_id_of_no_match (hab ("etb", "Elite Trainer Box") hetb),
        replaceWordCI_id_of_no_match (hab ("bb", "Booster Box") hbb)]
  rw [cleanProductName_mk (cleanProductName x), hraw, hexp]

/-- Witness for the amended claim C3: the end-to-end scenario input, whose
cleaned form `"scarlet & violet-151 Elite Trainer Box"` starts with no
catalog prefix and contains no remaining whole-word abbreviation. -/
theorem cleanProductName_idempotent_of_witness :
    cleanProductName (cleanProductName "pokemon tcg: scarlet & violet—151 etb") =
      cleanProductName "pokemon tcg: scarlet & violet—151 etb" :=
  cleanProductName_idempotent_of "pokemon tcg: scarlet & violet—151 etb"
    (by decide) (by decide)

end TCGBot
